import Mathlib

/-
Verification of the MCMC protein-design core (design/MCMC.py) of ProteusAI.

The definitions below are a shallow embedding of ProteinDesign.mutate,
ProteinDesign.p_accept and the step loop of ProteinDesign.run.  Randomness
(random.randint, random.choices, random.choice, random.random) is made
explicit: each random draw becomes an input to the embedded function, so
the functions below are the deterministic cores of the Python code.
Python floats are modelled as real numbers, except where IEEE special
values matter (division by zero in p_accept), where an explicit
extended-value type FloatVal models IEEE semantics of the operations used.
-/

/-- A constraint dictionary: Python `dict` mapping a constraint kind
(for example "no_mut", "all_atm") to a list of integer positions.
Modelled as an association list, preserving Python dict key order. -/
abbrev ConstraintSet := List (String × List ℤ)

/-- Read `constraints[k]`: value of key `k`, empty when absent
(the Python code only reads keys present in the dict). -/
def getConst (cs : ConstraintSet) (k : String) : List ℤ :=
  (((cs.find? (fun e => e.1 = k))).map Prod.snd).getD []

/-- `pos in constraints[i]['no_mut'] or pos in constraints[i]['all_atm']`
(MCMC.py line 136): the guard under which the site-search loop keeps
drawing a new position. -/
def isLockedPos (cs : ConstraintSet) (pos : ℤ) : Bool :=
  (getConst cs "no_mut").contains pos || (getConst cs "all_atm").contains pos

/-- The site-search `while` loop of ProteinDesign.mutate (lines 132-141),
with the stream of `random.randint(0, len(seq)-1)` draws made explicit:
the loop breaks at the first drawn position that is not locked, returning
it; exhausting the draw list without a break means the loop is still
running (the Python loop has no other exit: it either breaks on an
unlocked draw, or keeps looping). -/
def siteSearch (cs : ConstraintSet) : List ℤ → Option ℤ
  | [] => none
  | d :: ds => if isLockedPos cs d then siteSearch cs ds else some d

/-- Insertion edit (lines 155-156): `''.join([seq[:pos], insertion, seq[pos:]])`. -/
def insertAt (s : List Char) (p : ℕ) (c : Char) : List Char :=
  s.take p ++ [c] ++ s.drop p

/-- Deletion edit (lines 166-168): `l = list(seq); del l[pos]; ''.join(l)`. -/
def deleteAt (s : List Char) (p : ℕ) : List Char :=
  s.take p ++ s.drop (p + 1)

/-- Substitution edit (line 147): `''.join([seq[:pos], replacement, seq[pos+1:]])`. -/
def substAt (s : List Char) (p : ℕ) (c : Char) : List Char :=
  s.take p ++ [c] ++ s.drop (p + 1)

/-- Constraint remapping after an insertion (line 160):
`[i if i < pos else i + 1 for i in positions]`. -/
def remapIns (positions : List ℤ) (pos : ℕ) : List ℤ :=
  positions.map (fun j => if j < (pos : ℤ) then j else j + 1)

/-- Constraint remapping after a deletion (line 172):
`[i if i < pos else i - 1 for i in positions]`. -/
def remapDel (positions : List ℤ) (pos : ℕ) : List ℤ :=
  positions.map (fun j => if j < (pos : ℤ) then j else j - 1)

/-- The three mutation kinds, `mut_types = ('substitution', 'insertion', 'deletion')`. -/
inductive MutType where
  | substitution
  | insertion
  | deletion
deriving DecidableEq

/-- The random draws one iteration of the mutation loop body consumes once
the site search has exited: the chosen position, the mutation type drawn by
`random.choices(mut_types, mut_p)`, and the residue drawn by
`random.choice(AAs)` (used by substitution and insertion). -/
structure Decision where
  pos : ℕ
  mutType : MutType
  newRes : Char
deriving DecidableEq

/-- The branch dispatch of ProteinDesign.mutate for one sequence
(lines 143-185): substitution copies the constraints unchanged, insertion
shifts them with remapIns, deletion — only when `len(seq) > 1` — deletes
and shifts with remapDel, and the `else` branch (deletion drawn on a
sequence of length ≤ 1) performs an insertion at the same position and
shifts with remapIns.  Returns the mutated sequence and the rebuilt
constraint dict `mut_constraints`. -/
def mutateOne (seq : List Char) (cs : ConstraintSet) (d : Decision) :
    List Char × ConstraintSet :=
  match d.mutType with
  | MutType.substitution =>
      (substAt seq d.pos d.newRes, cs.map (fun e => (e.1, e.2)))
  | MutType.insertion =>
      (insertAt seq d.pos d.newRes, cs.map (fun e => (e.1, remapIns e.2 d.pos)))
  | MutType.deletion =>
      if seq.length > 1 then
        (deleteAt seq d.pos, cs.map (fun e => (e.1, remapDel e.2 d.pos)))
      else
        (insertAt seq d.pos d.newRes, cs.map (fun e => (e.1, remapIns e.2 d.pos)))

/-- ProteinDesign.mutate over a batch (lines 126-192): iterates the
per-sequence body over `seqs`, reading `constraints[i]` and consuming one
Decision per sequence, appending to `mutated_seqs` and
`mutated_constraints`.  Indexing past the end of the constraints or
decision lists is Python's IndexError, modelled as `none`. -/
def mutate :
    List (List Char) → List ConstraintSet → List Decision →
    Option (List (List Char) × List ConstraintSet)
  | [], _, _ => some ([], [])
  | s :: ss, c :: cs, d :: ds =>
      match mutate ss cs ds with
      | some (ms, mcs) => some ((mutateOne s c d).1 :: ms, (mutateOne s c d).2 :: mcs)
      | none => none
  | _ :: _, [], _ => none
  | _ :: _, _ :: _, [] => none

/-- The accept/reject loop of ProteinDesign.run (lines 301-304) applied to
one of the per-trajectory lists: position n keeps its old value unless
`p[n] > random.random()` (the uniform draw `r[n]` is below `p[n]`), in
which case it takes the proposed value. -/
def acceptUpdate {α : Type} : List ℚ → List ℚ → List α → List α → List α
  | pn :: ps, rn :: rs, o :: os, m :: ms =>
      (if rn < pn then m else o) :: acceptUpdate ps rs os ms
  | _, _, os, _ => os

/-- The per-trajectory state the run loop of ProteinDesign.run carries:
current sequences `seqs`, the `constraints` list, current energies `E_x_i`
and the structure artifacts `pdbs` (artifacts identified by a number). -/
structure TrajState where
  seqs : List (List Char)
  constraints : List ConstraintSet
  energies : List ℚ
  pdbs : List ℕ
deriving DecidableEq

/-- One iteration of the step loop of ProteinDesign.run (lines 294-307),
with the proposal already produced: `mut_seqs, constraints = mutate(...)`
(line 295) rebinds `constraints` to the proposal's remapped constraints
for every trajectory, before and regardless of the acceptance test; then
for each trajectory n, if `p[n] > random.random()` the energy and sequence
take the proposed values, and — when `self.pred_struc` holds and an output
directory is set — `pdbs[n]` takes the proposed artifact. -/
def runStep (st : TrajState) (mutSeqs : List (List Char))
    (mutCs : List ConstraintSet) (eMut : List ℚ) (pdbsMut : List ℕ)
    (p r : List ℚ) (predStruc outdirSet : Bool) : TrajState :=
  { seqs := acceptUpdate p r st.seqs mutSeqs
    constraints := mutCs
    energies := acceptUpdate p r st.energies eMut
    pdbs := if predStruc && outdirSet then acceptUpdate p r st.pdbs pdbsMut
            else st.pdbs }

/-- Heap model for the aliasing in ProteinDesign.run: Python list objects
holding structure artifacts live in heap cells; `self.ref_pdbs` and the
local variable `pdbs` hold references (cell indices) into the heap. -/
structure RunMem where
  heap : List (List ℕ)
  refPdbsLoc : Option ℕ
  pdbsLoc : ℕ
deriving DecidableEq

/-- Lines 289-292 of ProteinDesign.run: `E_x_i, pdbs = energy_function(...)`
allocates a fresh list (cell 0) holding the initial artifacts, and
`self.ref_pdbs = pdbs` copies the reference, so both names point at the
same cell. -/
def initMem (initialPdbs : List ℕ) : RunMem :=
  { heap := [initialPdbs], refPdbsLoc := some 0, pdbsLoc := 0 }

/-- The artifact part of one iteration of the step loop (lines 301-307):
for each accepted trajectory n, when `self.pred_struc` holds and an output
directory is set, `pdbs[n] = pdbs_mut[n]` mutates in place the list object
the local `pdbs` refers to. -/
def stepMem (m : RunMem) (pdbsMut : List ℕ) (p r : List ℚ)
    (predStruc outdirSet : Bool) : RunMem :=
  if predStruc && outdirSet then
    { m with
      heap := m.heap.set m.pdbsLoc
          (acceptUpdate p r (m.heap.getD m.pdbsLoc []) pdbsMut) }
  else m

/-- Dereference `self.ref_pdbs`: the list the reference points at
(`[]` while it is still None, before line 292 runs). -/
def readRefPdbs (m : RunMem) : List ℕ :=
  match m.refPdbsLoc with
  | some l => m.heap.getD l []
  | none => []

/-- ProteinDesign.p_accept (lines 245-253) over real numbers:
`T = T / (1 + M * i)`, `dE = E_x_i - E_x_mut`,
`exp_val = np.exp(1 / (T * dE))`, result `np.minimum(exp_val, 1)`. -/
noncomputable def p_accept (eMut eCur T : ℝ) (i : ℕ) (M : ℝ) : ℝ :=
  min (Real.exp (1 / ((T / (1 + M * i)) * (eCur - eMut)))) 1

/-- IEEE-style extended value: a finite float (modelled by a real), the
two infinities, or NaN.  Used to model p_accept where numpy's behaviour
on division by zero matters. -/
inductive FloatVal where
  | fin (x : ℝ)
  | posInf
  | negInf
  | nan

/-- IEEE addition on extended values. -/
def FloatVal.add : FloatVal → FloatVal → FloatVal
  | FloatVal.fin x, FloatVal.fin y => FloatVal.fin (x + y)
  | FloatVal.posInf, FloatVal.fin _ => FloatVal.posInf
  | FloatVal.fin _, FloatVal.posInf => FloatVal.posInf
  | FloatVal.negInf, FloatVal.fin _ => FloatVal.negInf
  | FloatVal.fin _, FloatVal.negInf => FloatVal.negInf
  | FloatVal.posInf, FloatVal.posInf => FloatVal.posInf
  | FloatVal.negInf, FloatVal.negInf => FloatVal.negInf
  | _, _ => FloatVal.nan

/-- IEEE multiplication on extended values (inf times zero is NaN). -/
noncomputable def FloatVal.mul : FloatVal → FloatVal → FloatVal
  | FloatVal.fin x, FloatVal.fin y => FloatVal.fin (x * y)
  | FloatVal.posInf, FloatVal.fin y =>
      if 0 < y then FloatVal.posInf else if y < 0 then FloatVal.negInf else FloatVal.nan
  | FloatVal.fin x, FloatVal.posInf =>
      if 0 < x then FloatVal.posInf else if x < 0 then FloatVal.negInf else FloatVal.nan
  | FloatVal.negInf, FloatVal.fin y =>
      if 0 < y then FloatVal.negInf else if y < 0 then FloatVal.posInf else FloatVal.nan
  | FloatVal.fin x, FloatVal.negInf =>
      if 0 < x then FloatVal.negInf else if x < 0 then FloatVal.posInf else FloatVal.nan
  | FloatVal.posInf, FloatVal.posInf => FloatVal.posInf
  | FloatVal.negInf, FloatVal.negInf => FloatVal.posInf
  | FloatVal.posInf, FloatVal.negInf => FloatVal.negInf
  | FloatVal.negInf, FloatVal.posInf => FloatVal.negInf
  | _, _ => FloatVal.nan

/-- IEEE subtraction on extended values. -/
def FloatVal.sub : FloatVal → FloatVal → FloatVal
  | FloatVal.fin x, FloatVal.fin y => FloatVal.fin (x - y)
  | FloatVal.posInf, FloatVal.fin _ => FloatVal.posInf
  | FloatVal.fin _, FloatVal.posInf => FloatVal.negInf
  | FloatVal.negInf, FloatVal.fin _ => FloatVal.negInf
  | FloatVal.fin _, FloatVal.negInf => FloatVal.posInf
  | FloatVal.posInf, FloatVal.negInf => FloatVal.posInf
  | FloatVal.negInf, FloatVal.posInf => FloatVal.negInf
  | _, _ => FloatVal.nan

/-- IEEE division on extended values: a nonzero finite value divided by
zero is a signed infinity (numpy true division), zero by zero is NaN. -/
noncomputable def FloatVal.div : FloatVal → FloatVal → FloatVal
  | FloatVal.fin x, FloatVal.fin y =>
      if y = 0 then
        if 0 < x then FloatVal.posInf else if x < 0 then FloatVal.negInf else FloatVal.nan
      else FloatVal.fin (x / y)
  | FloatVal.fin _, FloatVal.posInf => FloatVal.fin 0
  | FloatVal.fin _, FloatVal.negInf => FloatVal.fin 0
  | FloatVal.posInf, FloatVal.fin y =>
      if y < 0 then FloatVal.negInf else FloatVal.posInf
  | FloatVal.negInf, FloatVal.fin y =>
      if y < 0 then FloatVal.posInf else FloatVal.negInf
  | _, _ => FloatVal.nan

/-- `np.exp` on extended values: exp of +inf is +inf, of -inf is 0,
of NaN is NaN. -/
noncomputable def FloatVal.fexp : FloatVal → FloatVal
  | FloatVal.fin x => FloatVal.fin (Real.exp x)
  | FloatVal.posInf => FloatVal.posInf
  | FloatVal.negInf => FloatVal.fin 0
  | FloatVal.nan => FloatVal.nan

/-- `np.minimum` on extended values: NaN propagates; otherwise the
smaller value with +inf greatest and -inf least. -/
noncomputable def FloatVal.fmin : FloatVal → FloatVal → FloatVal
  | FloatVal.nan, _ => FloatVal.nan
  | _, FloatVal.nan => FloatVal.nan
  | FloatVal.posInf, b => b
  | a, FloatVal.posInf => a
  | FloatVal.negInf, _ => FloatVal.negInf
  | _, FloatVal.negInf => FloatVal.negInf
  | FloatVal.fin x, FloatVal.fin y => if x ≤ y then FloatVal.fin x else FloatVal.fin y

/-- ProteinDesign.p_accept (lines 245-253) under IEEE extended-value
arithmetic: the exact operation sequence `T = T / (1 + M * i)`,
`dE = E_x_i - E_x_mut`, `exp_val = np.exp(1 / (T * dE))`,
`np.minimum(exp_val, ones_like(exp_val))`. -/
noncomputable def p_acceptF (eMut eCur T : FloatVal) (i : ℕ) (M : FloatVal) : FloatVal :=
  FloatVal.fmin
    (FloatVal.fexp
      (FloatVal.div (FloatVal.fin 1)
        (FloatVal.mul
          (FloatVal.div T (FloatVal.add (FloatVal.fin 1) (FloatVal.mul M (FloatVal.fin (Nat.cast i)))))
          (FloatVal.sub eCur eMut))))
    (FloatVal.fin 1)

/-- Claim C4 — counterexample evaluation: a deletion at position 1 applied
to the constraint list [1] does not remove position 1; the code's remap
(line 172) turns it into the stale index 0 and keeps it in the list. -/
theorem remapDel_keeps_deleted_position :
    remapDel [(1 : ℤ)] 1 = [0] ∧ remapDel [(1 : ℤ)] 1 ≠ [] := by
  decide

/-- Claim C1 — counterexample evaluation: a rejected step (acceptance
probability 0, uniform draw 0, so `p[n] > random.random()` is false)
leaves sequence, energy and artifact unchanged, but the trajectory's
constraint set has been replaced by the proposal's remapped constraints,
because line 295 rebinds `constraints` before the acceptance test. -/
theorem rejected_step_replaces_constraints :
    (runStep ⟨[['A', 'B']], [[("no_mut", [(1 : ℤ)]), ("all_atm", [])]], [0], [4]⟩
        [['B']] [[("no_mut", [(0 : ℤ)]), ("all_atm", [])]] [5] [9] [0] [0]
        true true).seqs = [['A', 'B']] ∧
    (runStep ⟨[['A', 'B']], [[("no_mut", [(1 : ℤ)]), ("all_atm", [])]], [0], [4]⟩
        [['B']] [[("no_mut", [(0 : ℤ)]), ("all_atm", [])]] [5] [9] [0] [0]
        true true).energies = [0] ∧
    (runStep ⟨[['A', 'B']], [[("no_mut", [(1 : ℤ)]), ("all_atm", [])]], [0], [4]⟩
        [['B']] [[("no_mut", [(0 : ℤ)]), ("all_atm", [])]] [5] [9] [0] [0]
        true true).pdbs = [4] ∧
    (runStep ⟨[['A', 'B']], [[("no_mut", [(1 : ℤ)]), ("all_atm", [])]], [0], [4]⟩
        [['B']] [[("no_mut", [(0 : ℤ)]), ("all_atm", [])]] [5] [9] [0] [0]
        true true).constraints ≠ [[("no_mut", [(1 : ℤ)]), ("all_atm", [])]] := by
  refine ⟨rfl, rfl, rfl, ?_⟩
  decide

/-- Claim C2 — counterexample evaluation: `self.ref_pdbs = pdbs` aliases
the local artifact list, so an accepted step (probability 1, draw 0) with
`pred_struc` on and an output directory set overwrites the artifact the
reference state points at: after the step, dereferencing `self.ref_pdbs`
yields the accepted proposal's artifact 9, not the initial artifact 7. -/
theorem ref_pdbs_mutated_by_accepted_step :
    readRefPdbs (initMem [7]) = [7] ∧
    readRefPdbs (stepMem (initMem [7]) [9] [1] [0] true true) = [9] := by
  decide

/-- Claim C7: deleting the residue at a valid position p and then
inserting that same residue back at p restores the original sequence. -/
theorem delete_insert_roundtrip (s : List Char) (p : ℕ) (h : p < s.length) :
    insertAt (deleteAt s p) p (s.get ⟨p, h⟩) = s := by
  induction s generalizing p with
  | nil => simp at h
  | cons a t ih =>
      cases p with
      | zero => simp [insertAt, deleteAt]
      | succ q =>
          have hq : q < t.length := by simpa using h
          have := ih q hq
          simp only [insertAt, deleteAt, List.take_succ_cons, List.drop_succ_cons,
            List.get_cons_succ, List.cons_append] at this ⊢
          simpa using this

/-- Claim C7 witness: the round-trip at the concrete sequence "AC",
position 0 (deleted residue 'A'). -/
theorem delete_insert_roundtrip_w :
    insertAt (deleteAt ['A', 'C'] 0) 0 'A' = ['A', 'C'] :=
  delete_insert_roundtrip ['A', 'C'] 0 (by decide)

/-- Claim C3 — evaluation at the failing input: on a length-3 sequence
with `no_mut = [0, 1, 2]` every valid draw of
`random.randint(0, len(seq)-1)` is locked, so the site-search loop never
breaks: for every finite stream of draws it is still running (no
`NoMutableSite` is ever raised — the code has no such condition). -/
theorem siteSearch_all_locked_never_exits (draws : List ℤ)
    (h : ∀ d ∈ draws, 0 ≤ d ∧ d < 3) :
    siteSearch [("no_mut", [0, 1, 2]), ("all_atm", [])] draws = none := by
  induction draws with
  | nil => rfl
  | cons d ds ih =>
      have hd := h d (List.mem_cons_self d ds)
      have hlock : isLockedPos [("no_mut", [0, 1, 2]), ("all_atm", [])] d = true := by
        have h0 : d = 0 ∨ d = 1 ∨ d = 2 := by omega
        rcases h0 with h0 | h0 | h0 <;> subst h0 <;> decide
      simp only [siteSearch, hlock, if_true]
      exact ih (fun x hx => h x (List.mem_cons_of_mem d hx))

/-- Claim C3 witness: the search is still running after the concrete draw
stream 0, 1, 2, 0 on the all-locked length-3 constraint set. -/
theorem siteSearch_all_locked_never_exits_w :
    siteSearch [("no_mut", [0, 1, 2]), ("all_atm", [])] [0, 1, 2, 0] = none :=
  siteSearch_all_locked_never_exits [0, 1, 2, 0] (by decide)

/-- Claim C8: when deletion is drawn on a sequence of length 1, the
`elif ... and len(seq) > 1` guard fails and the `else` branch performs an
insertion at the same position; the result is never the empty sequence. -/
theorem mutateOne_deletion_len_one (seq : List Char) (cs : ConstraintSet)
    (pos : ℕ) (c : Char) (h : seq.length = 1) :
    (mutateOne seq cs ⟨pos, MutType.deletion, c⟩).1 = insertAt seq pos c ∧
    (mutateOne seq cs ⟨pos, MutType.deletion, c⟩).1 ≠ [] := by
  have hlen : ¬ seq.length > 1 := by omega
  have h1 : (mutateOne seq cs ⟨pos, MutType.deletion, c⟩).1 = insertAt seq pos c := by
    simp [mutateOne, hlen]
  refine ⟨h1, ?_⟩
  rw [h1]
  have h2 : (insertAt seq pos c).length = seq.length + 1 := by
    simp [insertAt]
    omega
  intro hcon
  rw [hcon] at h2
  simp at h2

/-- Claim C8 witness: deletion drawn on the length-1 sequence "A" at
position 0 with replacement residue 'C'. -/
theorem mutateOne_deletion_len_one_w :
    (mutateOne ['A'] [("no_mut", []), ("all_atm", [])]
        ⟨0, MutType.deletion, 'C'⟩).1 = insertAt ['A'] 0 'C' ∧
    (mutateOne ['A'] [("no_mut", []), ("all_atm", [])]
        ⟨0, MutType.deletion, 'C'⟩).1 ≠ [] :=
  mutateOne_deletion_len_one ['A'] [("no_mut", []), ("all_atm", [])] 0 'C' rfl

/-- Every branch of the per-sequence mutation body rebuilds the constraint
dict by iterating over the input dict's keys, so the key list is
preserved. -/
theorem mutateOne_keys (seq : List Char) (cs : ConstraintSet) (d : Decision) :
    ((mutateOne seq cs d).2).map Prod.fst = cs.map Prod.fst := by
  rcases d with ⟨pos, t, c⟩
  cases t with
  | substitution => simp [mutateOne]
  | insertion => simp [mutateOne]
  | deletion => by_cases hl : seq.length > 1 <;> simp [mutateOne, hl]

/-- Claim C10: on input lists of matching length, mutate returns (no
IndexError), the two output lists have exactly the input's length, and
each returned constraint dict has exactly the keys of the corresponding
input dict. -/
theorem mutate_preserves_shape (seqs : List (List Char))
    (css : List ConstraintSet) (ds : List Decision)
    (h1 : css.length = seqs.length) (h2 : ds.length = seqs.length) :
    ∃ ms mcs, mutate seqs css ds = some (ms, mcs) ∧
      ms.length = seqs.length ∧ mcs.length = seqs.length ∧
      List.Forall₂ (fun (c mc : ConstraintSet) =>
        mc.map Prod.fst = c.map Prod.fst) css mcs := by
  induction seqs generalizing css ds with
  | nil =>
      have hc : css = [] := List.length_eq_zero.mp h1
      subst hc
      exact ⟨[], [], rfl, rfl, rfl, List.Forall₂.nil⟩
  | cons s ss ih =>
      cases css with
      | nil => simp at h1
      | cons c cs =>
          cases ds with
          | nil => simp at h2
          | cons d dd =>
              have h1' : cs.length = ss.length := by simpa using h1
              have h2' : dd.length = ss.length := by simpa using h2
              obtain ⟨ms, mcs, heq, hml, hmcl, hkeys⟩ := ih cs dd h1' h2'
              refine ⟨(mutateOne s c d).1 :: ms, (mutateOne s c d).2 :: mcs,
                ?_, ?_, ?_, ?_⟩
              · simp only [mutate, heq]
              · simp [hml]
              · simp [hmcl]
              · exact List.Forall₂.cons (mutateOne_keys s c d) hkeys

/-- Claim C10 witness: one sequence "AC" with one constraint dict and a
substitution decision. -/
theorem mutate_preserves_shape_w :
    ∃ ms mcs,
      mutate [['A', 'C']] [[("no_mut", [(0 : ℤ)]), ("all_atm", [])]]
        [⟨0, MutType.substitution, 'G'⟩] = some (ms, mcs) ∧
      ms.length = [['A', 'C']].length ∧
      mcs.length = [['A', 'C']].length ∧
      List.Forall₂ (fun (c mc : ConstraintSet) =>
        mc.map Prod.fst = c.map Prod.fst)
        [[("no_mut", [(0 : ℤ)]), ("all_atm", [])]] mcs :=
  mutate_preserves_shape [['A', 'C']] [[("no_mut", [(0 : ℤ)]), ("all_atm", [])]]
    [⟨0, MutType.substitution, 'G'⟩] rfl rfl

/-- Claim C5: whenever the proposed energy is strictly lower than the
current energy, for every temperature T > 0 (and nonnegative decay rate,
so the annealed temperature stays positive), p_accept returns exactly 1:
dE is positive, the exponent is positive, exp exceeds 1, and the clip to
1 makes the result 1. -/
theorem p_accept_improvement_one (eMut eCur T M : ℝ) (i : ℕ)
    (hT : 0 < T) (hM : 0 ≤ M) (h : eMut < eCur) :
    p_accept eMut eCur T i M = 1 := by
  have hden : (0 : ℝ) < 1 + M * i := by
    have : (0 : ℝ) ≤ M * i := mul_nonneg hM (Nat.cast_nonneg i)
    linarith
  have hT' : 0 < T / (1 + M * i) := div_pos hT hden
  have hdE : 0 < eCur - eMut := sub_pos.mpr h
  have harg : 0 ≤ 1 / (T / (1 + M * i) * (eCur - eMut)) := by positivity
  have hexp : (1 : ℝ) ≤ Real.exp (1 / (T / (1 + M * i) * (eCur - eMut))) :=
    Real.one_le_exp harg
  unfold p_accept
  exact min_eq_right hexp

/-- Claim C5 witness: proposed energy 0 against current energy 1 at
temperature 1, decay 0, step 0. -/
theorem p_accept_improvement_one_w : p_accept 0 1 1 0 0 = 1 :=
  p_accept_improvement_one 0 1 1 0 0 (by norm_num) (le_refl 0) (by norm_num)

/-- Claim C6 — counterexample evaluation: at temperature 1 (decay 0,
step 0) with current energy 0, degrading by 2 is accepted with strictly
higher probability than degrading by 1: p_accept gives exp(-1) for the
smaller degradation and exp(-1/2) for the larger one, so the acceptance
probability is not non-increasing in the energy difference. -/
theorem p_accept_increasing_in_degradation :
    p_accept 1 0 1 0 0 < p_accept 2 0 1 0 0 := by
  have e1 : p_accept 1 0 1 0 0 = Real.exp (-1) := by
    unfold p_accept
    rw [show (1 : ℝ) / ((1 / (1 + 0 * ((0 : ℕ) : ℝ))) * (0 - 1)) = -1 by norm_num]
    exact min_eq_left (Real.exp_le_one_iff.mpr (by norm_num))
  have e2 : p_accept 2 0 1 0 0 = Real.exp (-(1 / 2)) := by
    unfold p_accept
    rw [show (1 : ℝ) / ((1 / (1 + 0 * ((0 : ℕ) : ℝ))) * (0 - 2)) = -(1 / 2) by norm_num]
    exact min_eq_left (Real.exp_le_one_iff.mpr (by norm_num))
  rw [e1, e2]
  exact Real.exp_lt_exp.mpr (by norm_num)

/-- Claim C9: with equal proposed and current energies, dE = 0 and the
annealed temperature is finite and positive, so `1 / (T * dE)` is a
division of 1 by zero — under IEEE arithmetic the quotient is +inf,
exp(+inf) is +inf, and the clip `minimum(+inf, 1)` returns exactly 1. -/
theorem p_acceptF_equal_energy_one (E T M : ℝ) (i : ℕ)
    (_hT : 0 < T) (hM : 0 ≤ M) :
    FloatVal.div (FloatVal.fin 1)
      (FloatVal.mul
        (FloatVal.div (FloatVal.fin T)
          (FloatVal.add (FloatVal.fin 1)
            (FloatVal.mul (FloatVal.fin M) (FloatVal.fin (Nat.cast i)))))
        (FloatVal.sub (FloatVal.fin E) (FloatVal.fin E))) = FloatVal.posInf ∧
    p_acceptF (FloatVal.fin E) (FloatVal.fin E) (FloatVal.fin T) i
      (FloatVal.fin M) = FloatVal.fin 1 := by
  have hden : (1 : ℝ) + M * (i : ℝ) ≠ 0 := by
    have : (0 : ℝ) ≤ M * i := mul_nonneg hM (Nat.cast_nonneg i)
    intro hcon
    linarith
  have hquot : FloatVal.div (FloatVal.fin 1)
      (FloatVal.mul
        (FloatVal.div (FloatVal.fin T)
          (FloatVal.add (FloatVal.fin 1)
            (FloatVal.mul (FloatVal.fin M) (FloatVal.fin (Nat.cast i)))))
        (FloatVal.sub (FloatVal.fin E) (FloatVal.fin E))) = FloatVal.posInf := by
    simp only [FloatVal.mul, FloatVal.add, FloatVal.sub, FloatVal.div,
      sub_self, mul_zero, hden, if_false]
    norm_num
  refine ⟨hquot, ?_⟩
  unfold p_acceptF
  rw [hquot]
  simp only [FloatVal.fexp, FloatVal.fmin]

/-- Claim C9 witness: equal energies 0 at temperature 1, decay 0,
step 0 — the quotient is +inf and the acceptance probability is 1. -/
theorem p_acceptF_equal_energy_one_w :
    FloatVal.div (FloatVal.fin 1)
      (FloatVal.mul
        (FloatVal.div (FloatVal.fin 1)
          (FloatVal.add (FloatVal.fin 1)
            (FloatVal.mul (FloatVal.fin 0) (FloatVal.fin (Nat.cast 0)))))
        (FloatVal.sub (FloatVal.fin 0) (FloatVal.fin 0))) = FloatVal.posInf ∧
    p_acceptF (FloatVal.fin 0) (FloatVal.fin 0) (FloatVal.fin 1) 0
      (FloatVal.fin 0) = FloatVal.fin 1 :=
  p_acceptF_equal_energy_one 0 1 0 0 (by norm_num) (le_refl 0)
